import Mathlib

deriving instance DecidableEq for Except

/-
  Verification development for the osc repository (Go).

  Shallow embedding conventions:
  - Go byte slices and strings are `List Nat`, each element standing for one
    byte (values 0..255 where the source guarantees it).
  - Machine integers are `Nat` with explicit `% 256` / width bounds where
    overflow matters; `Int32`/`Float32` values are modelled by their 32-bit
    big-endian wire bit patterns (Go encodes them via `math.Float32bits` /
    `uint32(i)`, which is a bijection on the bit patterns).
  - Fallible Go functions returning `(value, error)` become
    `Except Unit (value)`; the error payload strings are not modelled.
-/

namespace Osc

/-- Go `append(b, 0); for len(b)%4 > 0 { append(b, 0) }` from `String.Append`,
in closed form: pad with zero bytes until the total length is a multiple of
4 (no padding when it already is). -/
def pad4 (b : List Nat) : List Nat :=
  b ++ List.replicate ((4 - b.length % 4) % 4) 0

/-- Big-endian byte encoding of `v` in `n` bytes, as produced by
`binary.BigEndian.AppendUint32` / `AppendUint64` (low byte last). -/
def beBytes : Nat → Nat → List Nat
  | 0, _ => []
  | n + 1, v => beBytes n (v / 256) ++ [v % 256]

/-- Big-endian read of a whole byte list (`binary.BigEndian.Uint32`-style
accumulation). -/
def readBeList (l : List Nat) : Nat :=
  l.foldl (fun acc c => acc * 256 + c) 0

/-- Big-endian read of the first `n` bytes of `b`. -/
def readBe (n : Nat) (b : List Nat) : Nat :=
  readBeList (b.take n)

/-- Go `bytes.IndexByte`: index of the first occurrence of `x` in `b`. -/
def indexByte : List Nat → Nat → Option Nat
  | [], _ => none
  | c :: rest, x => if c = x then some 0 else (indexByte rest x).map (fun i => i + 1)

/-- Go `String.Append`: append the string bytes, a NUL terminator, then zero
padding until the total buffer length is a multiple of 4. -/
def stringAppend (s b : List Nat) : List Nat :=
  pad4 (b ++ s ++ [0])

/-- Go `String.Consume`: scan for the first NUL; fail if none. On success the
value is the bytes before the NUL and the remainder starts at
`min(end+4-end%4, len(b))`; the skipped padding bytes are not checked. -/
def stringConsume (b : List Nat) : Except Unit (List Nat × List Nat) :=
  match indexByte b 0 with
  | none => Except.error ()
  | some e => Except.ok (b.take e, b.drop (min (e + 4 - e % 4) b.length))

/-- The OSC Argument variants of message.go. `int32`/`float32` carry the
32-bit wire bit pattern; `str` carries the byte content. `timeTag` carries
the 64-bit wire word it encodes to: the source stores a `time.Time` and
converts via float64 arithmetic (`Sub(epoch).Seconds()`, `math.Modf`), which
is floating point and is not embedded here, so value-level claims about
TimeTag are settled outside this definition. -/
inductive Argument where
  | int32 (v : Nat)
  | float32 (v : Nat)
  | str (s : List Nat)
  | timeTag (raw : Nat)
  | True
  | False
  | Null
  | Impulse
deriving DecidableEq

/-- `TypeTag()` of each variant, as a byte: i=105, f=102, s=115, t=116,
T=84, F=70, N=78, I=73. -/
def typeTag : Argument → Nat
  | Argument.int32 _ => 105
  | Argument.float32 _ => 102
  | Argument.str _ => 115
  | Argument.timeTag _ => 116
  | Argument.True => 84
  | Argument.False => 70
  | Argument.Null => 78
  | Argument.Impulse => 73

/-- `Append` of each variant: int32/float32 append their 4 big-endian bytes,
timeTag its 8 big-endian bytes, str its NUL-terminated padded form, and the
four markers append nothing. -/
def appendArg : Argument → List Nat → List Nat
  | Argument.int32 v, b => b ++ beBytes 4 v
  | Argument.float32 v, b => b ++ beBytes 4 v
  | Argument.str s, b => stringAppend s b
  | Argument.timeTag r, b => b ++ beBytes 8 r
  | Argument.True, b => b
  | Argument.False, b => b
  | Argument.Null, b => b
  | Argument.Impulse, b => b

/-- `Consume` dispatched through the `newByTypeTag` registry: the tag byte
selects the constructor (unknown tags fail), then the variant's `Consume`
reads its encoding from the front of `b` and returns the remainder.
int32/float32 need 4 bytes, timeTag 8, str scans for a NUL, markers consume
nothing. -/
def consumeArg (tag : Nat) (b : List Nat) : Except Unit (Argument × List Nat) :=
  if tag = 105 then
    if b.length < 4 then Except.error ()
    else Except.ok (Argument.int32 (readBe 4 b), b.drop 4)
  else if tag = 102 then
    if b.length < 4 then Except.error ()
    else Except.ok (Argument.float32 (readBe 4 b), b.drop 4)
  else if tag = 115 then
    (stringConsume b).map (fun p => (Argument.str p.1, p.2))
  else if tag = 116 then
    if b.length < 8 then Except.error ()
    else Except.ok (Argument.timeTag (readBe 8 b), b.drop 8)
  else if tag = 84 then Except.ok (Argument.True, b)
  else if tag = 70 then Except.ok (Argument.False, b)
  else if tag = 78 then Except.ok (Argument.Null, b)
  else if tag = 73 then Except.ok (Argument.Impulse, b)
  else Except.error ()

/-- The argument loop of `ParseMessage`: consume one argument per tag
character, threading the buffer; the final remainder is discarded. -/
def consumeArgs : List Nat → List Nat → Except Unit (List Argument)
  | [], _ => Except.ok []
  | t :: ts, b =>
    match consumeArg t b with
    | Except.error u => Except.error u
    | Except.ok (a, b2) =>
      match consumeArgs ts b2 with
      | Except.error u => Except.error u
      | Except.ok rest => Except.ok (a :: rest)

/-- Go `osc.Message`: address pattern plus ordered arguments. -/
structure Message where
  pattern : List Nat
  arguments : List Argument
deriving DecidableEq

/-- Go `ParseMessage`: consume the address string, then the type tag string
(must be non-empty and start with a comma, byte 44), then one argument per
tag character. Leftover bytes are not reported back. -/
def ParseMessage (b : List Nat) : Except Unit Message :=
  match stringConsume b with
  | Except.error u => Except.error u
  | Except.ok (addr, b1) =>
    match stringConsume b1 with
    | Except.error u => Except.error u
    | Except.ok (tt, b2) =>
      match tt with
      | 44 :: tags =>
        match consumeArgs tags b2 with
        | Except.error u => Except.error u
        | Except.ok args => Except.ok ⟨addr, args⟩
      | _ => Except.error ()

/-- Go `Message.Append`: encoded address, then the synthesized type tag
string (a comma followed by each argument's tag), then each argument's
encoding in order. -/
def messageAppend (m : Message) (b : List Nat) : List Nat :=
  let b1 := stringAppend m.pattern b
  let b2 := stringAppend (44 :: m.arguments.map typeTag) b1
  m.arguments.foldl (fun acc a => appendArg a acc) b2

/-
  Pattern engine (src/server/pattern.go).
-/

/-- Go `charClass` from pattern.go: a `[256]bool` membership table (modelled
as a predicate on bytes) plus an inversion flag. -/
structure CharClass where
  chars : Nat → Bool
  invert : Bool

/-- One matcher node of a compiled Pattern: literal character, wildcard
(`single` true for `?`, false for `*`), or character class. -/
inductive Matcher where
  | char (c : Nat)
  | wildcard (single : Bool)
  | cclass (cc : CharClass)

/-- Go `matchResult`: the source packs the three transition flags into a bit
mask (`matchAdvanceBoth`, `matchAdvanceMatcher`, `matchAdvanceInput`); here
each bit is one Bool field, with `noMatch` = all false. -/
structure MatchRes where
  advBoth : Bool
  advMatcher : Bool
  advInput : Bool

/-- `charClass.match`: advance both sides when `chars[b] != invert`,
otherwise no match. -/
def ccMatch (cc : CharClass) (b : Nat) : MatchRes :=
  if cc.chars b ≠ cc.invert then ⟨true, false, false⟩ else ⟨false, false, false⟩

/-- The `match(byte)` method of each matcher: a literal advances both sides
on an exact byte match; `?` always advances both; `*` allows all three
transitions; a class advances both when the byte is in the (possibly
inverted) set. -/
def matcherMatch : Matcher → Nat → MatchRes
  | Matcher.char c, b => if c = b then ⟨true, false, false⟩ else ⟨false, false, false⟩
  | Matcher.wildcard true, _ => ⟨true, false, false⟩
  | Matcher.wildcard false, _ => ⟨true, true, true⟩
  | Matcher.cclass cc, b => ccMatch cc b

/-- True exactly for a multi-wildcard node (`*`). -/
def isMultiWildcard : Matcher → Bool
  | Matcher.wildcard false => true
  | _ => false

/-- The acceptance test of `matchState.match`: a state accepts when the
input is exhausted and every remaining matcher is a multi-wildcard. -/
def stepAccept (ms : List Matcher) (s : List Nat) : Bool :=
  s.isEmpty && ms.all isMultiWildcard

/-- The successor states of `matchState.match`: with input left and matchers
left, the head matcher against the head byte yields up to three successor
states (tail/tail, tail/same, same/tail), in the source's push order; a
`noMatch` result (all flags false) yields none, as does running out of
matchers while input remains. -/
def stepNext : List Matcher → List Nat → List (List Matcher × List Nat)
  | _, [] => []
  | [], _ :: _ => []
  | m :: mrest, c :: crest =>
    let r := matcherMatch m c
    (if r.advBoth then [(mrest, crest)] else []) ++
    (if r.advMatcher then [(mrest, c :: crest)] else []) ++
    (if r.advInput then [(m :: mrest, crest)] else [])

/-- The state-space search of `Pattern.Match`, expressed as structural
recursion on a fuel bound instead of the source's explicit stack: both
explore exactly the reachable states and return whether some reachable
state accepts, and every transition shrinks `matchers.length + input.length`
by at least one, so fuel `matchers.length + input.length + 1` never runs
out (the fuel-0 arm is unreachable from `patternMatch`). -/
def matchFuel : Nat → List Matcher → List Nat → Bool
  | 0, _, _ => false
  | fuel + 1, ms, s =>
    if stepAccept ms s then true
    else (stepNext ms s).any (fun p => matchFuel fuel p.1 p.2)

/-- Go `Pattern.Match`: true iff the state search starting from (all
matchers, whole input) reaches an accepting state. -/
def patternMatch (ms : List Matcher) (s : List Nat) : Bool :=
  matchFuel (ms.length + s.length + 1) ms s

/-- The effect of the Go range loop `for d := s[i-1]; d < next; d++`
in `parseCharClass`: mark every byte in `[lo, hi)`. -/
def setRange (chars : Nat → Bool) (lo hi : Nat) : Nat → Bool :=
  fun b => if lo ≤ b ∧ b < hi then true else chars b

/-- `cc.chars[c] = true` as a functional update. -/
def setChar (chars : Nat → Bool) (c : Nat) : Nat → Bool :=
  fun b => if b = c then true else chars b

/-- The body loop of `parseCharClass` over `s[0:e]`: at index `i`, a `-`
(byte 45) with a character on both sides inside the class denotes an
inclusive range, rejected when the upper bound is below the lower (the loop
itself marks `[s[i-1], s[i+1])` and the following iteration marks the upper
bound as a literal); any other byte (and a leading or trailing `-`) is a
literal member. `k` counts the remaining iterations (`k = e - i`), making
the recursion structural; indices accessed are always below `e` and hence
in bounds, so `getD`'s default is never read. -/
def classLoop (s : List Nat) (e : Nat) : Nat → Nat → (Nat → Bool) → Except Unit (Nat → Bool)
  | 0, _, chars => Except.ok chars
  | k + 1, i, chars =>
    let c := s.getD i 0
    if c = 45 ∧ 0 < i ∧ i + 1 < e then
      let prev := s.getD (i - 1) 0
      let next := s.getD (i + 1) 0
      if next < prev then Except.error ()
      else classLoop s e k (i + 1) (setRange chars prev next)
    else classLoop s e k (i + 1) (setChar chars c)

/-- Go `parseCharClass`: strip the leading `[` (byte 91; fail otherwise),
fail on end of input, consume an optional `!` (byte 33) setting the invert
flag, find the first `]` (byte 93; fail if none), run the body loop up to
it, and return the class with the text after the `]`. -/
def parseCharClass (s : List Nat) : Except Unit (CharClass × List Nat) :=
  match s with
  | 91 :: rest =>
    match rest with
    | [] => Except.error ()
    | c0 :: rest2 =>
      let inv : Bool := c0 == 33
      let body := if c0 == 33 then rest2 else c0 :: rest2
      match indexByte body 93 with
      | none => Except.error ()
      | some e =>
        match classLoop body e e 0 (fun _ => false) with
        | Except.error u => Except.error u
        | Except.ok chars => Except.ok (⟨chars, inv⟩, body.drop (e + 1))
  | _ => Except.error ()

/-- Outcomes of Go `parseMatcher`: a matcher with the remaining text, an
error, or a runtime panic (out-of-range index). -/
inductive PMRes where
  | ok (m : Matcher) (rest : List Nat)
  | err
  | crash

/-- Go `parseMatcher` as written in pattern.go, including its inverted
emptiness guard: `if len(s) != 0` returns the "unexpected end of input"
error, so every non-empty input errors, and on the empty input the
subsequent `s[0]` panics; the byte dispatch (`[` class, `*` multi-wildcard,
`?` single-wildcard, otherwise literal) is translated as in the source but
is unreachable under the guard. -/
def parseMatcher (s : List Nat) : PMRes :=
  if s.length ≠ 0 then PMRes.err
  else
    match s with
    | [] => PMRes.crash
    | c :: rest =>
      if c = 91 then
        match parseCharClass s with
        | Except.ok (cc, rem) => PMRes.ok (Matcher.cclass cc) rem
        | Except.error _ => PMRes.err
      else if c = 42 then PMRes.ok (Matcher.wildcard false) rest
      else if c = 63 then PMRes.ok (Matcher.wildcard true) rest
      else PMRes.ok (Matcher.char c) rest

/-- Modelled from the spec: the per-matcher step of pattern compilation.
`ParsePattern` (referenced by `Listener.handle`) is not among the provided
sources, so this follows spec section 4.3: compilation consumes the pattern
text left to right; `[` opens a character class (embedded above from the
source), `*` yields a multi-wildcard node, `?` a single-wildcard node, any
other byte a literal node, and it fails where a matcher was expected but
the input is exhausted. (The in-repo `parseMatcher`, whose inverted guard
makes it always fail, is embedded separately above and settled under its
own claim.) -/
def parseMatcherSpec (s : List Nat) : Except Unit (Matcher × List Nat) :=
  match s with
  | [] => Except.error ()
  | c :: rest =>
    if c = 91 then
      match parseCharClass s with
      | Except.ok (cc, rem) => Except.ok (Matcher.cclass cc, rem)
      | Except.error u => Except.error u
    else if c = 42 then Except.ok (Matcher.wildcard false, rest)
    else if c = 63 then Except.ok (Matcher.wildcard true, rest)
    else Except.ok (Matcher.char c, rest)

/-- Modelled from the spec: the compilation loop of `ParsePattern`, parsing
matchers until the text is exhausted. Each matcher consumes at least one
byte, so fuel `s.length` suffices and the fuel-0 arm is unreachable from
`ParsePattern`. -/
def parsePatternLoop : Nat → List Nat → Except Unit (List Matcher)
  | _, [] => Except.ok []
  | 0, _ :: _ => Except.error ()
  | fuel + 1, s =>
    match parseMatcherSpec s with
    | Except.error u => Except.error u
    | Except.ok (m, rest) =>
      match parsePatternLoop fuel rest with
      | Except.error u => Except.error u
      | Except.ok ms => Except.ok (m :: ms)

/-- Modelled from the spec: `ParsePattern` compiles pattern text into the
matcher sequence of a `Pattern`. -/
def ParsePattern (s : List Nat) : Except Unit (List Matcher) :=
  parsePatternLoop s.length s

/-
  Dispatch listener (server.go, provided as src/unnamed/part_002).
-/

/-- A registered handler table entry: the raw registration text and the
handler, modelled as a function from the message to `ok`/`error`. -/
structure HEntry where
  p : List Nat
  h : Message → Except Unit Unit

/-- Whether a handler invocation returned an error (which `Listener.handle`
only logs). -/
def isErr : Except Unit Unit → Bool
  | Except.error _ => true
  | Except.ok _ => false

/-- Default table entry, for positional `getD` access in statements. -/
def defaultEntry : HEntry := ⟨[], fun _ => Except.ok ()⟩

/-- The handler loop of `Listener.handle`: walk the table in order; each
entry whose registration text the compiled pattern matches is invoked and
contributes `(index, errored?)` to the invocation trace; an error is logged
and the loop continues with the remaining entries. `i` is the index of the
head entry. -/
def runHandlers (ms : List Matcher) (msg : Message) : Nat → List HEntry → List (Nat × Bool)
  | _, [] => []
  | i, e :: es =>
    if patternMatch ms e.p then
      (i, isErr (e.h msg)) :: runHandlers ms msg (i + 1) es
    else runHandlers ms msg (i + 1) es

/-- Go `Listener.handle`: compile a Pattern from the message's own address
field (returning the compile error if any, which the worker only logs) and
invoke every handler whose registered pattern text it matches; returns the
invocation trace. -/
def handle (hs : List HEntry) (msg : Message) : Except Unit (List (Nat × Bool)) :=
  match ParsePattern msg.pattern with
  | Except.error u => Except.error u
  | Except.ok ms => Except.ok (runHandlers ms msg 0 hs)

/-- The receive-loop body of `Listener.Serve` for one datagram of `n > 0`
bytes: `msg, err := osc.ParseMessage(buf[:n])`, a decode failure is logged,
and then — with no `continue` — `msg` is sent on the `recv` channel
regardless, so a failed decode enqueues the nil message (`none`). The
returned list is what the iteration enqueues for the workers. -/
def recvEnqueues (datagram : List Nat) : List (Option Message) :=
  match ParseMessage datagram with
  | Except.ok msg => [some msg]
  | Except.error _ => [none]

/-
  Well-formedness side conditions used by the round-trip theorems.
-/

/-- Byte-level well-formedness of an argument value: the int32/float32 bit
patterns fit in 32 bits, the timeTag wire word in 64 bits, and a string
contains no NUL byte (Go can hold a NUL inside a `String`, but the wire
format cannot represent it). -/
def wfArgB : Argument → Bool
  | Argument.int32 v => decide (v < 4294967296)
  | Argument.float32 v => decide (v < 4294967296)
  | Argument.str s => s.all (fun c => c ≠ 0)
  | Argument.timeTag r => decide (r < 18446744073709551616)
  | _ => true

/-- Whether an argument is a TimeTag. -/
def isTimeTagB : Argument → Bool
  | Argument.timeTag _ => true
  | _ => false

/-- Message whose address and string arguments are NUL-free and whose
numeric payloads are in range. -/
def wfMessage (m : Message) : Bool :=
  m.pattern.all (fun c => c ≠ 0) && m.arguments.all wfArgB

/-- Message containing no TimeTag argument (whose value codec goes through
float64 arithmetic in the source and is excluded from value-level claims). -/
def noTimeTag (m : Message) : Bool :=
  m.arguments.all (fun a => !(isTimeTagB a))

/-- Concatenation of the standalone encodings of a list of arguments. -/
def argsBytes : List Argument → List Nat
  | [] => []
  | a :: rest => appendArg a [] ++ argsBytes rest

/-
  Helper lemmas about padding, alignment and byte serialization.
-/

theorem pad4_length_mod (b : List Nat) : (pad4 b).length % 4 = 0 := by
  simp only [pad4, List.length_append, List.length_replicate]
  omega

theorem pad4_append_left (b x : List Nat) (h : b.length % 4 = 0) :
    pad4 (b ++ x) = b ++ pad4 x := by
  have hc : (4 - (b ++ x).length % 4) % 4 = (4 - x.length % 4) % 4 := by
    rw [List.length_append]
    omega
  rw [pad4, pad4, hc, List.append_assoc]

theorem stringAppend_aligned (s b : List Nat) (h : b.length % 4 = 0) :
    stringAppend s b = b ++ stringAppend s [] := by
  simp only [stringAppend, List.nil_append]
  rw [List.append_assoc, pad4_append_left _ _ h]

theorem beBytes_length (n : Nat) : ∀ v, (beBytes n v).length = n := by
  induction n with
  | zero => intro v; rfl
  | succ n ih => intro v; simp [beBytes, ih]

theorem readBeList_append (xs : List Nat) (x : Nat) :
    readBeList (xs ++ [x]) = readBeList xs * 256 + x := by
  simp [readBeList, List.foldl_append]

theorem readBe_beBytes (n : Nat) : ∀ v t, v < 256 ^ n →
    readBe n (beBytes n v ++ t) = v := by
  induction n with
  | zero =>
    intro v t hv
    interval_cases v
    rfl
  | succ n ih =>
    intro v t hv
    have hq : v / 256 < 256 ^ n := by
      rw [Nat.div_lt_iff_lt_mul (by norm_num)]
      calc v < 256 ^ (n + 1) := hv
        _ = 256 ^ n * 256 := by rw [pow_succ]
    have hlen : (beBytes n (v / 256)).length = n := beBytes_length n _
    have htake : (beBytes (n + 1) v ++ t).take (n + 1)
        = beBytes n (v / 256) ++ [v % 256] := by
      show (beBytes n (v / 256) ++ [v % 256] ++ t).take (n + 1) = _
      rw [List.append_assoc]
      rw [show n + 1 = (beBytes n (v / 256)).length + 1 by rw [hlen]]
      rw [List.take_append]
      simp
    have hpre : readBeList (beBytes n (v / 256)) = v / 256 := by
      have := ih (v / 256) [] hq
      simpa [readBe, List.append_nil, List.take_of_length_le (le_of_eq hlen)] using this
    rw [readBe, htake, readBeList_append, hpre]
    omega

theorem beBytes_append_drop (n v : Nat) (t : List Nat) :
    (beBytes n v ++ t).drop n = t := by
  have h := List.drop_left (beBytes n v) t
  rwa [beBytes_length] at h

theorem appendArg_length_mod (a : Argument) : (appendArg a []).length % 4 = 0 := by
  cases a with
  | int32 v => simp [appendArg, beBytes_length]
  | float32 v => simp [appendArg, beBytes_length]
  | str s => exact pad4_length_mod _
  | timeTag r => simp [appendArg, beBytes_length]
  | True => rfl
  | False => rfl
  | Null => rfl
  | Impulse => rfl

theorem appendArg_aligned (a : Argument) (b : List Nat) (h : b.length % 4 = 0) :
    appendArg a b = b ++ appendArg a [] := by
  cases a with
  | int32 v => simp [appendArg]
  | float32 v => simp [appendArg]
  | str s => exact stringAppend_aligned s b h
  | timeTag r => simp [appendArg]
  | True => simp [appendArg]
  | False => simp [appendArg]
  | Null => simp [appendArg]
  | Impulse => simp [appendArg]

theorem foldl_appendArg (args : List Argument) :
    ∀ b, b.length % 4 = 0 →
      args.foldl (fun acc a => appendArg a acc) b = b ++ argsBytes args := by
  induction args with
  | nil => intro b h; simp [argsBytes]
  | cons a rest ih =>
    intro b h
    have hlen : (b ++ appendArg a []).length % 4 = 0 := by
      rw [List.length_append]
      have := appendArg_length_mod a
      omega
    rw [List.foldl_cons, appendArg_aligned a b h, ih _ hlen, argsBytes,
      List.append_assoc]

theorem indexByte_append_zero (s r : List Nat) (h : ∀ c ∈ s, c ≠ 0) :
    indexByte (s ++ 0 :: r) 0 = some s.length := by
  induction s with
  | nil => simp [indexByte]
  | cons c cs ih =>
    have hc : c ≠ 0 := h c (by simp)
    have ih2 := ih (fun x hx => h x (List.mem_cons_of_mem c hx))
    simp [indexByte, hc, ih2]

theorem stringConsume_roundtrip (s t : List Nat) (h : ∀ c ∈ s, c ≠ 0) :
    stringConsume (stringAppend s [] ++ t) = Except.ok (s, t) := by
  set k := (4 - (s.length + 1) % 4) % 4 with hk
  have hSA : stringAppend s [] = s ++ 0 :: List.replicate k 0 := by
    simp [stringAppend, pad4, hk]
  have hIB : indexByte (stringAppend s [] ++ t) 0 = some s.length := by
    rw [hSA, List.append_assoc]
    exact indexByte_append_zero s _ h
  have hlen : (stringAppend s [] ++ t).length = s.length + 1 + k + t.length := by
    rw [hSA]
    simp
    omega
  have hmin : min (s.length + 4 - s.length % 4) (stringAppend s [] ++ t).length
      = s.length + 1 + k := by
    rw [hlen]
    omega
  have htake : (stringAppend s [] ++ t).take s.length = s := by
    rw [hSA, List.append_assoc, List.cons_append]
    rw [show s.length = s.length + 0 from rfl, List.take_append]
    simp
  have hdrop : (stringAppend s [] ++ t).drop (s.length + 1 + k) = t := by
    have hl2 : (stringAppend s []).length = s.length + 1 + k := by
      rw [hSA]; simp; omega
    have := List.drop_left (stringAppend s []) t
    rwa [hl2] at this
  rw [stringConsume, hIB]
  simp only [hmin, htake, hdrop]

theorem consumeArg_roundtrip (a : Argument) (t : List Nat) (h : wfArgB a = true) :
    consumeArg (typeTag a) (appendArg a [] ++ t) = Except.ok (a, t) := by
  cases a with
  | int32 v =>
    have hv : v < 4294967296 := by simpa [wfArgB] using h
    have hv2 : v < 256 ^ 4 := by norm_num; omega
    have hno : ¬ ((beBytes 4 v ++ t).length < 4) := by
      rw [List.length_append, beBytes_length]
      omega
    simp [typeTag, appendArg, consumeArg, hno, readBe_beBytes 4 v t hv2,
      beBytes_append_drop 4 v t]
    rw [beBytes_length]
    omega
  | float32 v =>
    have hv : v < 4294967296 := by simpa [wfArgB] using h
    have hv2 : v < 256 ^ 4 := by norm_num; omega
    have hno : ¬ ((beBytes 4 v ++ t).length < 4) := by
      rw [List.length_append, beBytes_length]
      omega
    simp [typeTag, appendArg, consumeArg, hno, readBe_beBytes 4 v t hv2,
      beBytes_append_drop 4 v t]
    rw [beBytes_length]
    omega
  | str s =>
    have hs : ∀ c ∈ s, c ≠ 0 := by simpa [wfArgB, List.all_eq_true] using h
    simp [typeTag, appendArg, consumeArg, stringConsume_roundtrip s t hs,
      Except.map]
  | timeTag r =>
    have hv : r < 18446744073709551616 := by simpa [wfArgB] using h
    have hv2 : r < 256 ^ 8 := by norm_num; omega
    have hno : ¬ ((beBytes 8 r ++ t).length < 8) := by
      rw [List.length_append, beBytes_length]
      omega
    simp [typeTag, appendArg, consumeArg, hno, readBe_beBytes 8 r t hv2,
      beBytes_append_drop 8 r t]
    rw [beBytes_length]
    omega
  | True => rfl
  | False => rfl
  | Null => rfl
  | Impulse => rfl

theorem consumeArgs_roundtrip (args : List Argument) :
    ∀ t, args.all wfArgB = true →
      consumeArgs (args.map typeTag) (argsBytes args ++ t) = Except.ok args := by
  induction args with
  | nil => intro t h; rfl
  | cons a rest ih =>
    intro t h
    obtain ⟨ha, hrest⟩ : wfArgB a = true ∧ rest.all wfArgB = true := by
      simpa [List.all_cons, Bool.and_eq_true] using h
    have h1 := consumeArg_roundtrip a (argsBytes rest ++ t) ha
    have h2 := ih t hrest
    simp only [List.map_cons, argsBytes, List.append_assoc, consumeArgs, h1, h2]

theorem typeTag_ne_zero (a : Argument) : typeTag a ≠ 0 := by
  cases a <;> simp [typeTag]

theorem messageAppend_decomp (m : Message) :
    messageAppend m [] =
      stringAppend m.pattern [] ++
        (stringAppend (44 :: m.arguments.map typeTag) [] ++ argsBytes m.arguments) := by
  have h1 : (stringAppend m.pattern []).length % 4 = 0 := pad4_length_mod _
  have hb : (stringAppend (44 :: m.arguments.map typeTag) []).length % 4 = 0 :=
    pad4_length_mod _
  have h2 : (stringAppend m.pattern [] ++
      stringAppend (44 :: m.arguments.map typeTag) []).length % 4 = 0 := by
    rw [List.length_append]
    omega
  simp only [messageAppend]
  rw [stringAppend_aligned (44 :: m.arguments.map typeTag) _ h1,
    foldl_appendArg _ _ h2, List.append_assoc]

theorem indexByte_none_iff (b : List Nat) (x : Nat) :
    indexByte b x = none ↔ x ∉ b := by
  induction b with
  | nil => simp [indexByte]
  | cons c cs ih =>
    by_cases hc : c = x
    · subst hc
      simp [indexByte]
    · simp [indexByte, hc, ih, Ne.symm hc]

theorem indexByte_first (b : List Nat) :
    ∀ e, (∀ c ∈ b.take e, c ≠ 0) → b.getD e 1 = 0 → indexByte b 0 = some e := by
  induction b with
  | nil =>
    intro e h1 h2
    simp [List.getD] at h2
  | cons c cs ih =>
    intro e h1 h2
    cases e with
    | zero =>
      have hc : c = 0 := by simpa using h2
      simp [indexByte, hc]
    | succ e2 =>
      have hc : c ≠ 0 := h1 c (by simp)
      have h1b : ∀ x ∈ cs.take e2, x ≠ 0 := by
        intro x hx
        exact h1 x (by simp [hx])
      have h2b : cs.getD e2 1 = 0 := by simpa using h2
      simp [indexByte, hc, ih e2 h1b h2b]

theorem runHandlers_mem (ms : List Matcher) (msg : Message) :
    ∀ (es : List HEntry) (i j : Nat) (b : Bool),
      ((j, b) ∈ runHandlers ms msg i es ↔
        ∃ k, k < es.length ∧ j = i + k ∧
          patternMatch ms (es.getD k defaultEntry).p = true ∧
          b = isErr ((es.getD k defaultEntry).h msg)) := by
  intro es
  induction es with
  | nil =>
    intro i j b
    simp [runHandlers]
  | cons e rest ih =>
    intro i j b
    by_cases hm : patternMatch ms e.p = true
    · rw [runHandlers, if_pos hm, List.mem_cons, ih (i + 1) j b]
      constructor
      · rintro (hhead | ⟨k, hk, hjk, hpm, hb⟩)
        · refine ⟨0, by simp, ?_, ?_, ?_⟩
          · simpa using congrArg Prod.fst hhead
          · simpa using hm
          · simpa using congrArg Prod.snd hhead
        · exact ⟨k + 1, by simpa using hk, by omega, by simpa using hpm,
            by simpa using hb⟩
      · rintro ⟨k, hk, hjk, hpm, hb⟩
        cases k with
        | zero =>
          left
          simp only [List.getD_cons_zero] at hpm hb
          rw [hb]
          have : j = i := by omega
          rw [this]
        | succ k2 =>
          right
          exact ⟨k2, by simpa using hk, by omega, by simpa using hpm,
            by simpa using hb⟩
    · rw [runHandlers, if_neg hm, ih (i + 1) j b]
      constructor
      · rintro ⟨k, hk, hjk, hpm, hb⟩
        exact ⟨k + 1, by simpa using hk, by omega, by simpa using hpm,
          by simpa using hb⟩
      · rintro ⟨k, hk, hjk, hpm, hb⟩
        cases k with
        | zero =>
          simp only [List.getD_cons_zero] at hpm
          exact absurd hpm hm
        | succ k2 =>
          exact ⟨k2, by simpa using hk, by omega, by simpa using hpm,
            by simpa using hb⟩

/-
  Concrete inputs used by the claim theorems.
-/

/-- The pattern text `[a-e]` as bytes. -/
def clsAE : List Nat := [91, 97, 45, 101, 93]

/-- The pattern text `[!a-e]` as bytes. -/
def clsNotAE : List Nat := [91, 33, 97, 45, 101, 93]

/-- The pattern text `[b-a]` as bytes. -/
def clsBA : List Nat := [91, 98, 45, 97, 93]

/-- Whether the class compiled from `input` matches byte `b` (its `match`
method returns something other than `noMatch`); false when compilation
fails. -/
def classMatchB (input : List Nat) (b : Nat) : Bool :=
  match parseCharClass input with
  | Except.ok (cc, _) => (ccMatch cc b).advBoth
  | Except.error _ => false

/-- The remaining text after compiling a class from `input`, if any. -/
def classRem (input : List Nat) : Option (List Nat) :=
  (parseCharClass input).toOption.map (fun p => p.2)

/-
  Claim theorems.
-/

/-- C1: the claim says `parseMatcher` dispatches on the first byte of a
non-empty input and fails exactly on the empty input. The code has the
emptiness guard inverted (`if len(s) != 0` returns the "unexpected end of
input" error), so every non-empty input — literal, `*`, `?` or `[`-class
alike — returns the error, and the empty input reaches `s[0]` and panics.
This theorem evaluates the embedded source at those inputs. -/
theorem c1_parse_matcher_guard_inverted :
    parseMatcher [97] = PMRes.err ∧ parseMatcher [42] = PMRes.err ∧
      parseMatcher [63] = PMRes.err ∧ parseMatcher [91, 97, 93] = PMRes.err ∧
      parseMatcher [] = PMRes.crash :=
  ⟨rfl, rfl, rfl, rfl, rfl⟩

/-- C2: the claim says a datagram whose bytes fail to decode is logged and
dropped, never enqueued for the workers. In the source the receive loop
logs the failure but lacks a `continue`, so it still sends the nil `msg`
on the worker channel: on the one-byte datagram `0x41` (which fails to
decode — no NUL terminator), the iteration enqueues the nil message
instead of enqueueing nothing. -/
theorem c2_decode_failure_still_enqueued :
    ParseMessage [65] = Except.error () ∧ recvEnqueues [65] = [none] :=
  ⟨rfl, rfl⟩

/-- C5: `String.Consume` succeeds exactly when the buffer contains a NUL
byte (so it fails on the empty buffer), and when the first NUL is at index
`e` it returns the bytes before it plus the remainder starting at the
smaller of the buffer length and the next multiple of 4 strictly greater
than `e` — with no condition on the content of the skipped padding bytes. -/
theorem c5_string_consume_contract (b : List Nat) :
    ((∃ r, stringConsume b = Except.ok r) ↔ 0 ∈ b) ∧
      ∀ e, (∀ c ∈ b.take e, c ≠ 0) → b.getD e 1 = 0 →
        stringConsume b =
          Except.ok (b.take e, b.drop (min (4 * (e / 4 + 1)) b.length)) := by
  constructor
  · constructor
    · rintro ⟨r, hr⟩
      by_contra h0
      have hn : indexByte b 0 = none := (indexByte_none_iff b 0).mpr h0
      rw [stringConsume, hn] at hr
      exact Except.noConfusion hr
    · intro h0
      cases hIB : indexByte b 0 with
      | none => exact absurd ((indexByte_none_iff b 0).mp hIB) (by simpa using h0)
      | some e => exact ⟨_, by rw [stringConsume, hIB]⟩
  · intro e h1 h2
    have hIB := indexByte_first b e h1 h2
    have hmin : min (e + 4 - e % 4) b.length = min (4 * (e / 4 + 1)) b.length := by
      omega
    simp only [stringConsume, hIB]
    rw [hmin]

/-- C5 witness: on the buffer `68 69 00 FF 07` the first NUL is at index 2,
the string is the two bytes before it, and the remainder starts at offset
4 = min(4·(2/4+1), 5) even though the skipped padding byte is 0xFF. -/
theorem c5_string_consume_contract_witness :
    stringConsume [104, 105, 0, 255, 7] = Except.ok ([104, 105], [7]) := by
  have h := (c5_string_consume_contract [104, 105, 0, 255, 7]).2 2
    (by decide) (by decide)
  exact h

set_option maxRecDepth 4000 in
/-- C6: the class compiled from `[a-e]` matches exactly the five bytes
a..e (97..101) and consumes the whole input; `[!a-e]` matches exactly
every other byte; and `parseCharClass` rejects `[b-a]` because the range's
upper bound is below its lower bound. -/
theorem c6_character_classes :
    (∀ b : Fin 256, classMatchB clsAE b.val = decide (97 ≤ b.val ∧ b.val ≤ 101)) ∧
      (∀ b : Fin 256,
        classMatchB clsNotAE b.val = !decide (97 ≤ b.val ∧ b.val ≤ 101)) ∧
      classRem clsAE = some [] ∧ classRem clsNotAE = some [] ∧
      parseCharClass clsBA = Except.error () :=
  ⟨by decide, by decide, rfl, rfl, rfl⟩

/-- C7: over compiled matcher sequences, `?` matches exactly the
one-character strings; `a*` (literal then multi-wildcard) matches "a" and
"abc" but not "b" nor ""; `*a` matches "a" and "xa" but not "ax". -/
theorem c7_wildcard_matching :
    (∀ l : List Nat, patternMatch [Matcher.wildcard true] l = (l.length == 1)) ∧
      patternMatch [Matcher.char 97, Matcher.wildcard false] [97] = true ∧
      patternMatch [Matcher.char 97, Matcher.wildcard false] [97, 98, 99] = true ∧
      patternMatch [Matcher.char 97, Matcher.wildcard false] [98] = false ∧
      patternMatch [Matcher.char 97, Matcher.wildcard false] [] = false ∧
      patternMatch [Matcher.wildcard false, Matcher.char 97] [97] = true ∧
      patternMatch [Matcher.wildcard false, Matcher.char 97] [120, 97] = true ∧
      patternMatch [Matcher.wildcard false, Matcher.char 97] [97, 120] = false := by
  refine ⟨?_, rfl, rfl, rfl, rfl, rfl, rfl, rfl⟩
  intro l
  match l with
  | [] => rfl
  | [c] => rfl
  | c1 :: c2 :: cs => rfl

/-- C9: the standalone encoding of every Argument variant has length a
multiple of 4: zero bytes for the True/False/Null/Impulse markers, exactly
4 for Int32 and Float32, exactly 8 for TimeTag, and NUL termination plus
zero padding for String. -/
theorem c9_argument_padding :
    (∀ a : Argument, (appendArg a []).length % 4 = 0) ∧
      (∀ v, (appendArg (Argument.int32 v) []).length = 4) ∧
      (∀ v, (appendArg (Argument.float32 v) []).length = 4) ∧
      (∀ r, (appendArg (Argument.timeTag r) []).length = 8) ∧
      (appendArg Argument.True []).length = 0 ∧
      (appendArg Argument.False []).length = 0 ∧
      (appendArg Argument.Null []).length = 0 ∧
      (appendArg Argument.Impulse []).length = 0 := by
  refine ⟨appendArg_length_mod, ?_, ?_, ?_, rfl, rfl, rfl, rfl⟩
  · intro v; simp [appendArg, beBytes_length]
  · intro v; simp [appendArg, beBytes_length]
  · intro r; simp [appendArg, beBytes_length]

/-- C10: `String.Append` pads the whole buffer to a multiple of 4, for
every initial buffer `b`, aligned or not; when `b` is unaligned the
appended portion alone is therefore not a multiple of 4 even though the
resulting buffer always is. -/
theorem c10_string_append_alignment (s b : List Nat) :
    (stringAppend s b).length % 4 = 0 ∧
      (b.length % 4 ≠ 0 → ((stringAppend s b).length - b.length) % 4 ≠ 0) := by
  have h1 : (stringAppend s b).length % 4 = 0 := pad4_length_mod _
  have h2 : b.length ≤ (stringAppend s b).length := by
    simp only [stringAppend, pad4, List.length_append]
    omega
  exact ⟨h1, fun hb => by omega⟩

/-- C10 witness: appending the one-byte string `a` to the unaligned
one-byte buffer `[1]` yields a 4-aligned buffer whose appended portion
(3 bytes) is itself not 4-aligned. -/
theorem c10_string_append_alignment_witness :
    (stringAppend [97] [1]).length % 4 = 0 ∧
      ((stringAppend [97] [1]).length - List.length [1]) % 4 ≠ 0 :=
  ⟨(c10_string_append_alignment [97] [1]).1,
    (c10_string_append_alignment [97] [1]).2 (by decide)⟩

/-- C3 (amended): for every Message whose address and String arguments are
NUL-free, whose numeric payloads are in range, and which contains no
TimeTag argument (the TimeTag value codec goes through float64 arithmetic
in the source and is not value-preserving), parsing the encoding yields
the same Message back, and re-encoding the parse result is byte-identical
to the original encoding. Float32 equality here is bit-pattern equality,
which is the claim's "NaN compared canonically" reading. -/
theorem c3_message_roundtrip (m : Message) (hwf : wfMessage m = true)
    (hnt : noTimeTag m = true) :
    ParseMessage (messageAppend m []) = Except.ok m ∧
      ∀ m2, ParseMessage (messageAppend m []) = Except.ok m2 →
        messageAppend m2 [] = messageAppend m [] := by
  obtain ⟨hpat, hargs⟩ :
      m.pattern.all (fun c => c ≠ 0) = true ∧ m.arguments.all wfArgB = true := by
    simpa [wfMessage, Bool.and_eq_true] using hwf
  have hpat2 : ∀ c ∈ m.pattern, c ≠ 0 := by
    simpa [List.all_eq_true] using hpat
  have htt : ∀ c ∈ (44 :: m.arguments.map typeTag), c ≠ 0 := by
    intro c hc
    rcases List.mem_cons.mp hc with h44 | hmem
    · subst h44; decide
    · obtain ⟨a, _, rfl⟩ := List.mem_map.mp hmem
      exact typeTag_ne_zero a
  have h1 := stringConsume_roundtrip m.pattern
    (stringAppend (44 :: m.arguments.map typeTag) [] ++ argsBytes m.arguments)
    hpat2
  have h2 := stringConsume_roundtrip (44 :: m.arguments.map typeTag)
    (argsBytes m.arguments) htt
  have h3 := consumeArgs_roundtrip m.arguments [] hargs
  rw [List.append_nil] at h3
  have hmain : ParseMessage (messageAppend m []) = Except.ok m := by
    rw [messageAppend_decomp]
    simp only [ParseMessage, h1, h2, h3]
  refine ⟨hmain, ?_⟩
  intro m2 hm2
  rw [hmain] at hm2
  injection hm2 with hh
  rw [hh]

/-- Concrete message for the C3 witness: address "/a" and one argument of
each variant covered by the amended claim. -/
def c3wm : Message :=
  ⟨[47, 97],
    [Argument.int32 5, Argument.float32 1065353216, Argument.str [104, 105],
     Argument.True, Argument.False, Argument.Null, Argument.Impulse]⟩

/-- C3 witness: the round-trip theorem applied to `c3wm`. -/
theorem c3_message_roundtrip_witness :
    ParseMessage (messageAppend c3wm []) = Except.ok c3wm ∧
      ∀ m2, ParseMessage (messageAppend c3wm []) = Except.ok m2 →
        messageAppend m2 [] = messageAppend c3wm [] :=
  c3_message_roundtrip c3wm (by decide) (by decide)

/-- C3 counterexample: a String argument containing an interior NUL byte.
Encoding the message with argument "x\x00y" parses back with argument "x"
(decode stops at the first NUL and skips the rest as padding), so the
claim's deep-equality fails, and re-encoding the parse result is not
byte-identical to the original encoding. -/
theorem c3_message_roundtrip_counterexample :
    ParseMessage (messageAppend ⟨[47, 97], [Argument.str [120, 0, 121]]⟩ []) =
        Except.ok ⟨[47, 97], [Argument.str [120]]⟩ ∧
      Message.mk [47, 97] [Argument.str [120]] ≠
        Message.mk [47, 97] [Argument.str [120, 0, 121]] ∧
      messageAppend ⟨[47, 97], [Argument.str [120]]⟩ [] ≠
        messageAppend ⟨[47, 97], [Argument.str [120, 0, 121]]⟩ [] := by
  refine ⟨by decide, by decide, by decide⟩

/-- C8 (amended): for every Argument whose String content is NUL-free and
whose numeric payload is in range, and which is not a TimeTag (whose
float64-based value conversion the byte-level embedding excludes),
consuming its encoding followed by arbitrary trailing bytes returns an
equal value and exactly the trailing bytes. -/
theorem c8_argument_roundtrip (a : Argument) (t : List Nat)
    (hwf : wfArgB a = true) (hnt : isTimeTagB a = false) :
    consumeArg (typeTag a) (appendArg a [] ++ t) = Except.ok (a, t) :=
  consumeArg_roundtrip a t hwf

/-- C8 witness: the per-argument round trip at the String "hi" with two
trailing bytes. -/
theorem c8_argument_roundtrip_witness :
    consumeArg (typeTag (Argument.str [104, 105]))
        (appendArg (Argument.str [104, 105]) [] ++ [9, 9]) =
      Except.ok (Argument.str [104, 105], [9, 9]) :=
  c8_argument_roundtrip (Argument.str [104, 105]) [9, 9] (by decide) (by decide)

/-- C8 counterexample: the String "a\x00b" contains a NUL, and consuming
its encoding (with trailing byte 7) yields the truncated value "a" rather
than a value equal to the original, refuting the claim's unrestricted
quantification over variant values. -/
theorem c8_argument_roundtrip_counterexample :
    consumeArg (typeTag (Argument.str [97, 0, 98]))
        (appendArg (Argument.str [97, 0, 98]) [] ++ [7]) ≠
      Except.ok (Argument.str [97, 0, 98], [7]) := by
  decide

/-- C4: when the Pattern compiled from the message's own address field
compiles successfully, `Listener.handle` invokes exactly the handlers
whose raw registered pattern text that Pattern matches: the invocation
trace contains entry `i` if and only if the pattern matches its registered
text — independently of whether any other handler (earlier or later)
returned an error, which is only recorded (logged) in the trace — and
every trace entry comes from a matching handler. -/
theorem c4_dispatch (hs : List HEntry) (msg : Message) (ms : List Matcher)
    (hp : ParsePattern msg.pattern = Except.ok ms) :
    handle hs msg = Except.ok (runHandlers ms msg 0 hs) ∧
      (∀ i, i < hs.length →
        ((i, isErr ((hs.getD i defaultEntry).h msg)) ∈ runHandlers ms msg 0 hs ↔
          patternMatch ms (hs.getD i defaultEntry).p = true)) ∧
      ∀ j b, (j, b) ∈ runHandlers ms msg 0 hs →
        j < hs.length ∧ patternMatch ms (hs.getD j defaultEntry).p = true ∧
          b = isErr ((hs.getD j defaultEntry).h msg) := by
  refine ⟨by simp only [handle, hp], ?_, ?_⟩
  · intro i hi
    rw [runHandlers_mem]
    constructor
    · rintro ⟨k, hk, hjk, hpm, hb⟩
      have hki : k = i := by omega
      subst hki
      exact hpm
    · intro hpm
      exact ⟨i, hi, by omega, hpm, rfl⟩
  · intro j b hmem
    rw [runHandlers_mem] at hmem
    obtain ⟨k, hk, hjk, hpm, hb⟩ := hmem
    have hkj : j = k := by omega
    subst hkj
    exact ⟨hk, hpm, hb⟩

/-- Handler table for the C4 witness: a handler on "/test/a" that always
errors, then a handler on "/test" that succeeds. -/
def c4hs : List HEntry :=
  [⟨[47, 116, 101, 115, 116, 47, 97], fun _ => Except.error ()⟩,
   ⟨[47, 116, 101, 115, 116], fun _ => Except.ok ()⟩]

/-- Incoming message for the C4 witness, addressed to "/test/a". -/
def c4msg : Message := ⟨[47, 116, 101, 115, 116, 47, 97], []⟩

/-- The matcher sequence compiled from "/test/a". -/
def c4ms : List Matcher :=
  [Matcher.char 47, Matcher.char 116, Matcher.char 101, Matcher.char 115,
   Matcher.char 116, Matcher.char 47, Matcher.char 97]

/-- C4 witness: the dispatch theorem applied to the concrete table and
message above (the compile hypothesis discharged by computation). -/
theorem c4_dispatch_witness :
    handle c4hs c4msg = Except.ok (runHandlers c4ms c4msg 0 c4hs) ∧
      (∀ i, i < c4hs.length →
        ((i, isErr ((c4hs.getD i defaultEntry).h c4msg)) ∈
            runHandlers c4ms c4msg 0 c4hs ↔
          patternMatch c4ms (c4hs.getD i defaultEntry).p = true)) ∧
      ∀ j b, (j, b) ∈ runHandlers c4ms c4msg 0 c4hs →
        j < c4hs.length ∧ patternMatch c4ms (c4hs.getD j defaultEntry).p = true ∧
          b = isErr ((c4hs.getD j defaultEntry).h c4msg) :=
  c4_dispatch c4hs c4msg c4ms rfl

end Osc
